import Mathlib

/-!
Verification development for the flex-grow size allocator (src/lib.rs).

The allocator distributes an available size among children that each carry a
minimum size, an optional maximum, an optional/required flag with a priority,
and a growth weight.  It proceeds in phases: seat required children at their
minimum in input order (failing with NotEnoughSpace when one does not fit),
seat optional children at their minimum in descending priority order (skipping
those that do not fit), distribute the remaining space proportionally to
growth-weighted capacities, and finally hand out rounding leftovers one unit
at a time.

Modelling conventions:
* usize is modelled as Nat; the subtractions performed by the source are
  modelled with truncated Nat subtraction (the source's subtractions are
  guarded or discussed explicitly where they matter).
* f64 growth arithmetic is modelled as exact rational arithmetic; the
  f64-to-usize cast (truncation toward zero, negative values clamped to 0)
  is modelled by Int.floor followed by Int.toNat.
* Rust's stable sort by key (sort_by_key with Reverse(priority)) is modelled
  by sorting with the total order "higher priority first, ties broken by
  original position"; for distinct positions this lexicographic order has a
  unique sorted permutation, which is exactly the stable sort's output.
* The trailing while loop runs as long as it hands out at least one unit per
  pass and space remains, so the number of productive passes is bounded by
  the available space at loop entry; the model uses that bound as fuel.
-/

namespace FlexGrow

/-- Models the source's error enum: the only failure is NotEnoughSpace. -/
inductive Error where
  | NotEnoughSpace
deriving DecidableEq, Repr

/-- Models the Optionality enum: Required, or Optional with a priority
(bigger is more important). -/
inductive Optionality where
  | required
  | optional (priority : ℕ)
deriving DecidableEq, Repr

/-- Models ChildConstraints: min, optional max, optionality, grow (f64 as ℚ). -/
structure ChildConstraints where
  min : ℕ
  max : Option ℕ
  optionality : Optionality
  grow : ℚ
deriving DecidableEq, Repr

/-- Models the Default impl for ChildConstraints:
min 0, no max, required, grow 1.0. -/
instance : Inhabited ChildConstraints :=
  ⟨{ min := 0, max := none, optionality := .required, grow := 1 }⟩

/-- Models the Child struct: an opaque content payload, the constraints, and
the resolved size (none when not included). -/
structure Child (C : Type) where
  content : C
  constraints : ChildConstraints
  size : Option ℕ
deriving DecidableEq, Repr

variable {C : Type}

/-- Models Child::new: default constraints and no size. -/
def Child.new (content : C) : Child C :=
  { content, constraints := default, size := none }

/-- Models Child::optional_with_priority. -/
def Child.optional_with_priority (c : Child C) (priority : ℕ) : Child C :=
  { c with constraints := { c.constraints with optionality := .optional priority } }

/-- Models Child::optional, which uses priority 0. -/
def Child.optional (c : Child C) : Child C :=
  c.optional_with_priority 0

/-- Models Child::with_min. -/
def Child.with_min (c : Child C) (min : ℕ) : Child C :=
  { c with constraints := { c.constraints with min := min } }

/-- Models Child::with_max. -/
def Child.with_max (c : Child C) (max : ℕ) : Child C :=
  { c with constraints := { c.constraints with max := some max } }

/-- Models Child::clamp: sets both min and max. -/
def Child.clamp (c : Child C) (min max : ℕ) : Child C :=
  { c with constraints := { c.constraints with min := min, max := some max } }

/-- Models Child::with_size: a fixed size sets min = max = size. -/
def Child.with_size (c : Child C) (size : ℕ) : Child C :=
  { c with constraints := { c.constraints with min := size, max := some size } }

/-- Models Child::with_grow. -/
def Child.with_grow (c : Child C) (grow : ℚ) : Child C :=
  { c with constraints := { c.constraints with grow := grow } }

/-- Models Child::is_optional. -/
def Child.is_optional (c : Child C) : Bool :=
  match c.constraints.optionality with
  | .optional _ => true
  | .required => false

/-- Models the ContainerBuilder struct. -/
structure ContainerBuilder (C : Type) where
  available : ℕ
  margin_between : ℕ
  children : List (Child C)

/-- Models the Container struct. -/
structure Container (C : Type) where
  children : List (Child C)
deriving DecidableEq, Repr

/-- Models ContainerBuilder::with_available. -/
def ContainerBuilder.with_available (available : ℕ) : ContainerBuilder C :=
  { available, margin_between := 0, children := [] }

/-- Models ContainerBuilder::with_margin_between. -/
def ContainerBuilder.with_margin_between (b : ContainerBuilder C) (margin : ℕ) :
    ContainerBuilder C :=
  { b with margin_between := margin }

/-- Models ContainerBuilder::add: push a child at the end. -/
def ContainerBuilder.add (b : ContainerBuilder C) (child : Child C) : ContainerBuilder C :=
  { b with children := b.children ++ [child] }

/-- Models the chaining method that the source spells as a single word the
Lean grammar reserves; it just delegates to add. -/
def ContainerBuilder.with_child (b : ContainerBuilder C) (child : Child C) :
    ContainerBuilder C :=
  b.add child

/-- First pass of build: required children are seated at their minimum in
input order, optional children get size none; returns the updated children,
the remaining available space and the number of seated children, or fails
with NotEnoughSpace when a required child's min plus margin does not fit. -/
def phase1 (margin_between : ℕ) :
    List (Child C) → ℕ → ℕ → Except Error (List (Child C) × ℕ × ℕ)
  | [], available, added_children => .ok ([], available, added_children)
  | child :: rest, available, added_children =>
    if child.is_optional then
      match phase1 margin_between rest available added_children with
      | .error e => .error e
      | .ok (l, a, ad) => .ok ({ child with size := none } :: l, a, ad)
    else
      let margin := if 0 < added_children then margin_between else 0
      if available < child.constraints.min + margin then
        .error .NotEnoughSpace
      else
        match phase1 margin_between rest
            (available - child.constraints.min - margin) (added_children + 1) with
        | .error e => .error e
        | .ok (l, a, ad) => .ok ({ child with size := some child.constraints.min } :: l, a, ad)

/-- Sort key used for optional children (the Optional priority; the required
arm of the source's match returns 0 and is unreachable after the filter). -/
def sortKey (c : Child C) : ℕ :=
  match c.constraints.optionality with
  | .optional priority => priority
  | .required => 0

/-- The optional children of the list, paired with their positions, in input
order: models children.iter_mut().enumerate-style filtering for is_optional. -/
def optPairsFrom (k : ℕ) : List (Child C) → List (ℕ × Child C)
  | [] => []
  | child :: rest =>
    if child.is_optional then (k, child) :: optPairsFrom (k + 1) rest
    else optPairsFrom (k + 1) rest

/-- Total order modelling the source's stable descending sort by priority:
higher priority first, and for equal priorities the original position first.
A stable sort by a key is exactly a sort by the lexicographic order on
(key, original position), which is what this relation expresses. -/
def pairLE (a b : ℕ × Child C) : Prop :=
  sortKey b.2 < sortKey a.2 ∨ (sortKey a.2 = sortKey b.2 ∧ a.1 ≤ b.1)

instance : DecidableRel (pairLE (C := C)) := fun a b =>
  inferInstanceAs (Decidable
    (sortKey b.2 < sortKey a.2 ∨ (sortKey a.2 = sortKey b.2 ∧ a.1 ≤ b.1)))

instance : IsTotal (ℕ × Child C) pairLE :=
  ⟨by intro a b; unfold pairLE; omega⟩

instance : IsTrans (ℕ × Child C) pairLE :=
  ⟨by intro a b c hab hbc; unfold pairLE at hab hbc ⊢; omega⟩

/-- The optional children with their positions, in the order the second pass
processes them: by priority descending, insertion order breaking ties. -/
def phase2Sorted (cs : List (Child C)) : List (ℕ × Child C) :=
  List.insertionSort pairLE (optPairsFrom 0 cs)

/-- Second pass of build: walk the priority-sorted optional children; seat
each whose min plus margin fits (deducting the cost and updating the list at
its position), skip the others.  Threads available and the seated count. -/
def phase2 (margin_between : ℕ) :
    List (ℕ × Child C) → List (Child C) → ℕ → ℕ → List (Child C) × ℕ × ℕ
  | [], cs, available, added_children => (cs, available, added_children)
  | (i, child) :: rest, cs, available, added_children =>
    let margin := if 0 < added_children then margin_between else 0
    if available < child.constraints.min + margin then
      phase2 margin_between rest cs available added_children
    else
      phase2 margin_between rest
        (cs.set i { child with size := some child.constraints.min })
        (available - child.constraints.min - margin) (added_children + 1)

/-- Growth share of one child: 0 when not seated, otherwise grow times the
capacity (max - size as usize when a max is declared, the whole remaining
available space otherwise), cast to f64 (here ℚ). -/
def growthOf (available : ℕ) (child : Child C) : ℚ :=
  match child.size with
  | none => 0
  | some size =>
    let cap : ℕ :=
      match child.constraints.max with
      | none => available
      | some max => max - size
    child.constraints.grow * (cap : ℚ)

/-- The growth shares of all children in order (0 for unseated children,
matching the source's zero-initialised vector). -/
def growths (children : List (Child C)) (available : ℕ) : List ℚ :=
  children.map (growthOf available)

/-- Models the f64-to-usize cast of the source: truncation toward zero,
negative values clamped to 0. -/
def f64AsUsize (q : ℚ) : ℕ :=
  (Int.floor q).toNat

/-- Third pass of build: walk the children in order; every seated child gets
growth = its share times (current available / sum of shares), truncated to
usize, added to its size and deducted from available. -/
def phase3Loop (sum_growths : ℚ) :
    List (Child C) → List ℚ → ℕ → List (Child C) × ℕ
  | [], _, available => ([], available)
  | child :: rest, [], available => (child :: rest, available)
  | child :: rest, g :: gs, available =>
    match child.size with
    | none =>
      let (l, a) := phase3Loop sum_growths rest gs available
      (child :: l, a)
    | some size =>
      let growth : ℚ := g * ((available : ℚ) / sum_growths)
      let gn : ℕ := f64AsUsize growth
      let (l, a) := phase3Loop sum_growths rest gs (available - gn)
      ({ child with size := some (size + gn) } :: l, a)

/-- Models the max_or-style check of the final pass: true when the child has
no max or its size is still strictly below it. -/
def fitsBelowMax (max : Option ℕ) (size : ℕ) : Bool :=
  match max with
  | none => true
  | some m => decide (size < m)

/-- One pass of the final while loop: give one unit to every seated child
still below its max, in order, stopping the moment available reaches 0;
returns the children, the remaining available and how many units were given. -/
def passChildren : List (Child C) → ℕ → ℕ → List (Child C) × ℕ × ℕ
  | [], available, given => ([], available, given)
  | child :: rest, available, given =>
    match child.size with
    | none =>
      let (l, a, g) := passChildren rest available given
      (child :: l, a, g)
    | some size =>
      if fitsBelowMax child.constraints.max size then
        if available - 1 = 0 then
          ({ child with size := some (size + 1) } :: rest, 0, given + 1)
        else
          let (l, a, g) := passChildren rest (available - 1) (given + 1)
          ({ child with size := some (size + 1) } :: l, a, g)
      else
        let (l, a, g) := passChildren rest available given
        (child :: l, a, g)

/-- The final while loop: repeat passes while space remains and the previous
pass gave something.  Each productive pass consumes at least one unit, so the
available space at entry bounds the number of passes and serves as fuel. -/
def loop3b : ℕ → List (Child C) → ℕ → List (Child C) × ℕ
  | 0, children, available => (children, available)
  | fuel + 1, children, available =>
    if available = 0 then (children, available)
    else
      let (children', available', given) := passChildren children available 0
      if given = 0 then (children', available')
      else loop3b fuel children' available'

/-- Models ContainerBuilder::build: the four passes chained. -/
def ContainerBuilder.build (b : ContainerBuilder C) : Except Error (Container C) :=
  match phase1 b.margin_between b.children b.available 0 with
  | .error e => .error e
  | .ok (children1, available1, added1) =>
    let (children2, available2, _) :=
      phase2 b.margin_between (phase2Sorted children1) children1 available1 added1
    let gs := growths children2 available2
    let (children3, available3) := phase3Loop gs.sum children2 gs available2
    let (children4, _) := loop3b available3 children3 available3
    .ok ⟨children4⟩

/-- Convenience form of build taking the builder fields directly. -/
def build (available margin_between : ℕ) (children : List (Child C)) :
    Except Error (Container C) :=
  ContainerBuilder.build { available, margin_between, children }

/-- Models Container::builder_in. -/
def Container.builder_in (available : ℕ) : ContainerBuilder C :=
  ContainerBuilder.with_available available

/-- Models Container::sizes: the sizes in insertion order, 0 for excluded. -/
def Container.sizes (con : Container C) : List ℕ :=
  con.children.map (fun sc => sc.size.getD 0)

/-- Sum of the resolved sizes of the seated children. -/
def seatedSum (cs : List (Child C)) : ℕ :=
  (cs.map (fun c => c.size.getD 0)).sum

/-- Number of seated children (those whose size is some). -/
def seatedCount (cs : List (Child C)) : ℕ :=
  (cs.filter (fun c => c.size.isSome)).length

/-- Claim-side predicate for the failure condition: processing the children
in input order with optional children consuming no space, some required
child's min plus its margin cost (margin_between when a required child was
already seated, else 0) exceeds the budget remaining at that point. -/
def requiredOverflow (margin_between : ℕ) : List (Child C) → ℕ → ℕ → Bool
  | [], _, _ => false
  | child :: rest, available, seated =>
    if child.is_optional then
      requiredOverflow margin_between rest available seated
    else
      let margin := if 0 < seated then margin_between else 0
      if available < child.constraints.min + margin then true
      else
        requiredOverflow margin_between rest
          (available - child.constraints.min - margin) (seated + 1)

/-! ## Basic lemmas about the metrics -/

@[simp]
theorem seatedSum_nil : seatedSum ([] : List (Child C)) = 0 := rfl

@[simp]
theorem seatedSum_cons (c : Child C) (cs : List (Child C)) :
    seatedSum (c :: cs) = c.size.getD 0 + seatedSum cs := rfl

@[simp]
theorem seatedCount_nil : seatedCount ([] : List (Child C)) = 0 := rfl

@[simp]
theorem seatedCount_cons (c : Child C) (cs : List (Child C)) :
    seatedCount (c :: cs) = (if c.size.isSome then 1 else 0) + seatedCount cs := by
  by_cases h : c.size.isSome <;> simp [seatedCount, List.filter_cons, h, Nat.add_comm]

theorem phase1_ok_map (m : ℕ) (cs : List (Child C)) : ∀ (a k : ℕ) {l : List (Child C)}
    {a' k' : ℕ}, phase1 m cs a k = .ok (l, a', k') →
    l = cs.map (fun c =>
      { c with size := if c.is_optional then none else some c.constraints.min }) := by
  induction cs with
  | nil =>
    intro a k l a' k' h
    simp only [phase1, Except.ok.injEq, Prod.mk.injEq] at h
    simp [← h.1]
  | cons c rest ih =>
    intro a k l a' k' h
    simp only [phase1] at h
    split at h
    · rename_i hc
      cases hrec : phase1 m rest a k with
      | error e => rw [hrec] at h; simp at h
      | ok t =>
        obtain ⟨l₀, a₀, k₀⟩ := t
        rw [hrec] at h
        simp only [Except.ok.injEq, Prod.mk.injEq] at h
        rw [← h.1, ih _ _ hrec]
        simp [hc]
    · rename_i hc
      generalize hM : (if 0 < k then m else 0) = M at h
      split at h
      · simp at h
      · rename_i hfit
        cases hrec : phase1 m rest (a - c.constraints.min - M) (k + 1) with
        | error e => rw [hrec] at h; simp at h
        | ok t =>
          obtain ⟨l₀, a₀, k₀⟩ := t
          rw [hrec] at h
          simp only [Except.ok.injEq, Prod.mk.injEq] at h
          rw [← h.1, ih _ _ hrec]
          simp [hc]

theorem phase1_ok_arith (m : ℕ) (cs : List (Child C)) : ∀ (a k : ℕ) {l : List (Child C)}
    {a' k' : ℕ}, phase1 m cs a k = .ok (l, a', k') →
    a' + seatedSum l + m * (k' - 1) = a + m * (k - 1) ∧ k' = k + seatedCount l := by
  induction cs with
  | nil =>
    intro a k l a' k' h
    simp only [phase1, Except.ok.injEq, Prod.mk.injEq] at h
    obtain ⟨h1, h2, h3⟩ := h
    subst h2 h3
    simp [← h1, seatedSum, seatedCount]
  | cons c rest ih =>
    intro a k l a' k' h
    simp only [phase1] at h
    split at h
    · rename_i hc
      cases hrec : phase1 m rest a k with
      | error e => rw [hrec] at h; simp at h
      | ok t =>
        obtain ⟨l₀, a₀, k₀⟩ := t
        rw [hrec] at h
        simp only [Except.ok.injEq, Prod.mk.injEq] at h
        obtain ⟨h1, h2, h3⟩ := h
        subst h2 h3
        obtain ⟨ih1, ih2⟩ := ih _ _ hrec
        subst h1
        constructor
        · simpa using ih1
        · simpa using ih2
    · rename_i hc
      generalize hM : (if 0 < k then m else 0) = M at h
      split at h
      · simp at h
      · rename_i hfit
        cases hrec : phase1 m rest (a - c.constraints.min - M) (k + 1) with
        | error e => rw [hrec] at h; simp at h
        | ok t =>
          obtain ⟨l₀, a₀, k₀⟩ := t
          rw [hrec] at h
          simp only [Except.ok.injEq, Prod.mk.injEq] at h
          obtain ⟨h1, h2, h3⟩ := h
          subst h2 h3
          obtain ⟨ih1, ih2⟩ := ih _ _ hrec
          subst h1
          have hfit' : c.constraints.min + M ≤ a := by omega
          have hmul : m * ((k + 1) - 1) = m * (k - 1) + M := by
            cases k with
            | zero => simp at hM; subst hM; simp
            | succ j =>
              have hj : 0 < j + 1 := Nat.succ_pos j
              simp only [hj, if_true] at hM
              subst hM
              simp [Nat.mul_succ, Nat.succ_sub_one]
          rw [hmul] at ih1
          constructor
          · simp only [seatedSum_cons, Option.getD_some]
            generalize m * (k₀ - 1) = X at ih1 ⊢
            generalize m * (k - 1) = Y at ih1 ⊢
            omega
          · simp only [seatedCount_cons, Option.isSome_some, if_true]
            omega

theorem phase1_error_iff (m : ℕ) (cs : List (Child C)) : ∀ (a k : ℕ),
    phase1 m cs a k = .error .NotEnoughSpace ↔ requiredOverflow m cs a k = true := by
  induction cs with
  | nil => intro a k; simp [phase1, requiredOverflow]
  | cons c rest ih =>
    intro a k
    simp only [phase1, requiredOverflow]
    split
    · rename_i hc
      rw [← ih a k]
      cases hrec : phase1 m rest a k with
      | error e => cases e; simp
      | ok t => simp
    · rename_i hc
      generalize hM : (if 0 < k then m else 0) = M
      split
      · simp
      · rename_i hfit
        rw [← ih _ _]
        cases hrec : phase1 m rest (a - c.constraints.min - M) (k + 1) with
        | error e => cases e; simp
        | ok t => simp


theorem margin_mul (m k M : ℕ) (hM : (if 0 < k then m else 0) = M) :
    m * ((k + 1) - 1) = m * (k - 1) + M := by
  cases k with
  | zero => simp at hM; subst hM; simp
  | succ j =>
    have hj : 0 < j + 1 := Nat.succ_pos j
    simp only [hj, if_true] at hM
    subst hM
    simp [Nat.mul_succ, Nat.succ_sub_one]

theorem seatedSum_set (cs : List (Child C)) : ∀ (i : ℕ) (c c' : Child C),
    cs[i]? = some c → c.size = none →
    seatedSum (cs.set i c') = seatedSum cs + c'.size.getD 0 := by
  induction cs with
  | nil => intro i c c' h _; simp at h
  | cons d rest ih =>
    intro i c c' h hnone
    cases i with
    | zero =>
      simp only [List.getElem?_cons_zero, Option.some.injEq] at h
      subst h
      simp [hnone, Nat.add_comm]
    | succ j =>
      simp only [List.getElem?_cons_succ] at h
      simp only [List.set_cons_succ, seatedSum_cons, ih j c c' h hnone]
      omega

theorem seatedCount_set (cs : List (Child C)) : ∀ (i : ℕ) (c c' : Child C),
    cs[i]? = some c → c.size = none →
    seatedCount (cs.set i c') = seatedCount cs + (if c'.size.isSome then 1 else 0) := by
  induction cs with
  | nil => intro i c c' h _; simp at h
  | cons d rest ih =>
    intro i c c' h hnone
    cases i with
    | zero =>
      simp only [List.getElem?_cons_zero, Option.some.injEq] at h
      subst h
      simp [hnone, Nat.add_comm]
    | succ j =>
      simp only [List.getElem?_cons_succ] at h
      simp only [List.set_cons_succ, seatedCount_cons, ih j c c' h hnone]
      omega

theorem optPairsFrom_mem (cs : List (Child C)) : ∀ (k i : ℕ) (x : Child C),
    (i, x) ∈ optPairsFrom k cs ↔
      ∃ j, i = k + j ∧ cs[j]? = some x ∧ x.is_optional = true := by
  induction cs with
  | nil => intro k i x; simp [optPairsFrom]
  | cons c rest ih =>
    intro k i x
    simp only [optPairsFrom]
    split
    · rename_i hc
      simp only [List.mem_cons, Prod.mk.injEq, ih (k + 1)]
      constructor
      · rintro (⟨rfl, rfl⟩ | ⟨j, rfl, h2, h3⟩)
        · exact ⟨0, by simp, by simp, hc⟩
        · exact ⟨j + 1, by omega, by simpa using h2, h3⟩
      · rintro ⟨j, rfl, h2, h3⟩
        cases j with
        | zero =>
          simp only [List.getElem?_cons_zero, Option.some.injEq] at h2
          exact Or.inl ⟨by omega, h2.symm⟩
        | succ j' =>
          simp only [List.getElem?_cons_succ] at h2
          exact Or.inr ⟨j', by omega, h2, h3⟩
    · rename_i hc
      rw [ih (k + 1)]
      constructor
      · rintro ⟨j, rfl, h2, h3⟩
        exact ⟨j + 1, by omega, by simpa using h2, h3⟩
      · rintro ⟨j, rfl, h2, h3⟩
        cases j with
        | zero =>
          simp only [List.getElem?_cons_zero, Option.some.injEq] at h2
          subst h2
          exact absurd h3 (by simpa using hc)
        | succ j' =>
          simp only [List.getElem?_cons_succ] at h2
          exact ⟨j', by omega, h2, h3⟩

theorem optPairsFrom_key_ge (cs : List (Child C)) (k : ℕ) (p : ℕ × Child C)
    (hp : p ∈ optPairsFrom k cs) : k ≤ p.1 := by
  obtain ⟨i, x⟩ := p
  rw [optPairsFrom_mem] at hp
  obtain ⟨j, rfl, -, -⟩ := hp
  omega

theorem optPairsFrom_keys_sorted (cs : List (Child C)) : ∀ (k : ℕ),
    (optPairsFrom k cs).Pairwise (fun p q => p.1 < q.1) := by
  induction cs with
  | nil => intro k; simp [optPairsFrom]
  | cons c rest ih =>
    intro k
    simp only [optPairsFrom]
    split
    · refine List.Pairwise.cons ?_ (ih (k + 1))
      intro q hq
      have := optPairsFrom_key_ge rest (k + 1) q hq
      omega
    · exact ih (k + 1)

theorem phase2_mem (m : ℕ) : ∀ (ps : List (ℕ × Child C)) (cs : List (Child C)) (a k : ℕ)
    {cs' : List (Child C)} {a' k' : ℕ}, phase2 m ps cs a k = (cs', a', k') →
    ∀ c' ∈ cs', c' ∈ cs ∨ ∃ p ∈ ps, c' = { p.2 with size := some p.2.constraints.min } := by
  intro ps
  induction ps with
  | nil =>
    intro cs a k cs' a' k' h c' hc'
    simp only [phase2, Prod.mk.injEq] at h
    rw [← h.1] at hc'
    exact Or.inl hc'
  | cons p rest ih =>
    obtain ⟨i, child⟩ := p
    intro cs a k cs' a' k' h c' hc'
    simp only [phase2] at h
    generalize hM : (if 0 < k then m else 0) = M at h
    split at h
    · rcases ih _ _ _ h c' hc' with h1 | ⟨q, hq, he⟩
      · exact Or.inl h1
      · exact Or.inr ⟨q, List.mem_cons_of_mem _ hq, he⟩
    · rcases ih _ _ _ h c' hc' with h1 | ⟨q, hq, he⟩
      · rcases List.mem_or_eq_of_mem_set h1 with h2 | h2
        · exact Or.inl h2
        · exact Or.inr ⟨(i, child), List.mem_cons_self _ _, h2⟩
      · exact Or.inr ⟨q, List.mem_cons_of_mem _ hq, he⟩

theorem phase2_arith (m : ℕ) : ∀ (ps : List (ℕ × Child C)) (cs : List (Child C)) (a k : ℕ)
    {cs' : List (Child C)} {a' k' : ℕ}, phase2 m ps cs a k = (cs', a', k') →
    (∀ p ∈ ps, cs[p.1]? = some p.2 ∧ p.2.size = none) →
    (ps.map Prod.fst).Nodup →
    a' + seatedSum cs' + m * (k' - 1) = a + seatedSum cs + m * (k - 1) ∧
    k' + seatedCount cs = k + seatedCount cs' := by
  intro ps
  induction ps with
  | nil =>
    intro cs a k cs' a' k' h _ _
    simp only [phase2, Prod.mk.injEq] at h
    obtain ⟨h1, h2, h3⟩ := h
    subst h2 h3
    rw [← h1]
    omega
  | cons p rest ih =>
    obtain ⟨i, child⟩ := p
    intro cs a k cs' a' k' h hlook hnd
    have hhead := hlook (i, child) (List.mem_cons_self _ _)
    simp only [phase2] at h
    generalize hM : (if 0 < k then m else 0) = M at h
    split at h
    · exact ih _ _ _ h (fun p hp => hlook p (List.mem_cons_of_mem _ hp))
        (by simpa using hnd.of_cons)
    · rename_i hfit
      have hne : ∀ p ∈ rest, p.1 ≠ i := by
        intro p hp
        simp only [List.map_cons, List.nodup_cons] at hnd
        intro he
        exact hnd.1 (he ▸ List.mem_map_of_mem Prod.fst hp)
      have hlook' : ∀ p ∈ rest,
          (cs.set i { child with size := some child.constraints.min })[p.1]? = some p.2 ∧
            p.2.size = none := by
        intro p hp
        rw [List.getElem?_set_ne (Ne.symm (hne p hp))]
        exact hlook p (List.mem_cons_of_mem _ hp)
      obtain ⟨ih1, ih2⟩ := ih _ _ _ h hlook' (by simpa using hnd.of_cons)
      have hsum := seatedSum_set cs i child
        { child with size := some child.constraints.min } hhead.1 hhead.2
      have hcount := seatedCount_set cs i child
        { child with size := some child.constraints.min } hhead.1 hhead.2
      rw [hsum] at ih1
      rw [hcount] at ih2
      simp only [Option.getD_some, Option.isSome_some, if_true] at ih1 ih2
      have hmul := margin_mul m k M hM
      rw [hmul] at ih1
      have hfit' : child.constraints.min + M ≤ a := by omega
      constructor
      · generalize m * (k' - 1) = X at ih1 ⊢
        generalize m * (k - 1) = Y at ih1 ⊢
        omega
      · omega


theorem phase2Sorted_perm (cs : List (Child C)) :
    List.Perm (phase2Sorted cs) (optPairsFrom 0 cs) :=
  List.perm_insertionSort _ _

theorem phase2Sorted_sorted (cs : List (Child C)) :
    List.Sorted pairLE (phase2Sorted cs) :=
  List.sorted_insertionSort _ _

theorem phase2Sorted_lookups (cs1 : List (Child C))
    (horig : ∀ c ∈ cs1, c.is_optional = true → c.size = none) :
    ∀ p ∈ phase2Sorted cs1, cs1[p.1]? = some p.2 ∧ p.2.size = none := by
  intro p hp
  obtain ⟨i, x⟩ := p
  simp only [phase2Sorted] at hp
  rw [List.mem_insertionSort] at hp
  rw [optPairsFrom_mem] at hp
  obtain ⟨j, rfl, hj, hopt⟩ := hp
  refine ⟨by simpa using hj, ?_⟩
  exact horig x (List.getElem?_mem hj) hopt

theorem phase2Sorted_keys_nodup (cs1 : List (Child C)) :
    ((phase2Sorted cs1).map Prod.fst).Nodup := by
  have hperm : List.Perm ((phase2Sorted cs1).map Prod.fst)
      ((optPairsFrom 0 cs1).map Prod.fst) :=
    (phase2Sorted_perm cs1).map Prod.fst
  have hnd : ((optPairsFrom 0 cs1).map Prod.fst).Nodup := by
    have := optPairsFrom_keys_sorted cs1 0
    exact (List.pairwise_map.mpr this).imp Nat.ne_of_lt
  exact hperm.nodup_iff.mpr hnd

theorem f64AsUsize_le (g sumG : ℚ) (a : ℕ) (h0 : 0 ≤ g) (h1 : g ≤ sumG) :
    f64AsUsize (g * ((a : ℚ) / sumG)) ≤ a := by
  rcases le_or_lt sumG 0 with hs | hs
  · have hg0 : g = 0 := le_antisymm (h1.trans hs) h0
    simp [hg0, f64AsUsize]
  · have hq : g * ((a : ℚ) / sumG) ≤ (a : ℚ) := by
      have h2 : (0 : ℚ) ≤ (a : ℚ) / sumG := div_nonneg (Nat.cast_nonneg a) hs.le
      calc g * ((a : ℚ) / sumG) ≤ sumG * ((a : ℚ) / sumG) :=
            mul_le_mul_of_nonneg_right h1 h2
        _ = (a : ℚ) := by rw [mul_comm]; exact div_mul_cancel₀ _ (ne_of_gt hs)
    unfold f64AsUsize
    have h3 : Int.floor (g * ((a : ℚ) / sumG)) ≤ Int.floor ((a : ℚ)) := Int.floor_mono hq
    rw [Int.floor_natCast] at h3
    omega

theorem phase3Loop_arith (sumG : ℚ) : ∀ (cs : List (Child C)) (gs : List ℚ) (a : ℕ)
    {cs' : List (Child C)} {a' : ℕ}, phase3Loop sumG cs gs a = (cs', a') →
    (∀ g ∈ gs, 0 ≤ g ∧ g ≤ sumG) →
    a' + seatedSum cs' = a + seatedSum cs ∧ seatedCount cs' = seatedCount cs := by
  intro cs
  induction cs with
  | nil =>
    intro gs a cs' a' h _
    simp only [phase3Loop, Prod.mk.injEq] at h
    obtain ⟨h1, h2⟩ := h
    subst h2
    rw [← h1]
    exact ⟨rfl, rfl⟩
  | cons c rest ih =>
    intro gs a cs' a' h hg
    cases gs with
    | nil =>
      simp only [phase3Loop, Prod.mk.injEq] at h
      obtain ⟨h1, h2⟩ := h
      subst h2
      rw [← h1]
      exact ⟨rfl, rfl⟩
    | cons g gs' =>
      simp only [phase3Loop] at h
      cases hsz : c.size with
      | none =>
        rw [hsz] at h
        cases hrec : phase3Loop sumG rest gs' a with
        | mk l a₀ =>
          rw [hrec] at h
          simp only [Prod.mk.injEq] at h
          obtain ⟨h1, h2⟩ := h
          subst h2
          obtain ⟨ih1, ih2⟩ := ih gs' a hrec (fun x hx => hg x (List.mem_cons_of_mem _ hx))
          rw [← h1]
          simp only [seatedSum_cons, seatedCount_cons, hsz]
          constructor
          · simpa using ih1
          · simpa using ih2
      | some size =>
        rw [hsz] at h
        have hgn : f64AsUsize (g * ((a : ℚ) / sumG)) ≤ a := by
          obtain ⟨hg0, hg1⟩ := hg g (List.mem_cons_self _ _)
          exact f64AsUsize_le g sumG a hg0 hg1
        cases hrec : phase3Loop sumG rest gs' (a - f64AsUsize (g * ((a : ℚ) / sumG))) with
        | mk l a₀ =>
          rw [hrec] at h
          simp only [Prod.mk.injEq] at h
          obtain ⟨h1, h2⟩ := h
          subst h2
          obtain ⟨ih1, ih2⟩ := ih gs' _ hrec (fun x hx => hg x (List.mem_cons_of_mem _ hx))
          rw [← h1]
          simp only [seatedSum_cons, seatedCount_cons, hsz, Option.getD_some,
            Option.isSome_some, if_true]
          generalize hGN : f64AsUsize (g * ((a : ℚ) / sumG)) = gn at hgn ih1 hrec ⊢
          constructor
          · omega
          · simpa using ih2

theorem phase3Loop_mem (sumG : ℚ) : ∀ (cs : List (Child C)) (gs : List ℚ) (a : ℕ)
    {cs' : List (Child C)} {a' : ℕ}, phase3Loop sumG cs gs a = (cs', a') →
    ∀ c' ∈ cs', ∃ c ∈ cs, c'.content = c.content ∧ c'.constraints = c.constraints ∧
      (c'.size = c.size ∨ ∃ s n, c.size = some s ∧ c'.size = some (s + n)) := by
  intro cs
  induction cs with
  | nil =>
    intro gs a cs' a' h c' hc'
    simp only [phase3Loop, Prod.mk.injEq] at h
    rw [← h.1] at hc'
    simp at hc'
  | cons c rest ih =>
    intro gs a cs' a' h c' hc'
    cases gs with
    | nil =>
      simp only [phase3Loop, Prod.mk.injEq] at h
      rw [← h.1] at hc'
      exact ⟨c', hc', rfl, rfl, Or.inl rfl⟩
    | cons g gs' =>
      simp only [phase3Loop] at h
      cases hsz : c.size with
      | none =>
        rw [hsz] at h
        cases hrec : phase3Loop sumG rest gs' a with
        | mk l a₀ =>
          rw [hrec] at h
          simp only [Prod.mk.injEq] at h
          rw [← h.1] at hc'
          rcases List.mem_cons.mp hc' with h' | hc''
          · rw [h']
            exact ⟨c, List.mem_cons_self _ _, rfl, rfl, Or.inl rfl⟩
          · obtain ⟨d, hd, he⟩ := ih gs' a hrec c' hc''
            exact ⟨d, List.mem_cons_of_mem _ hd, he⟩
      | some size =>
        rw [hsz] at h
        cases hrec : phase3Loop sumG rest gs' (a - f64AsUsize (g * ((a : ℚ) / sumG))) with
        | mk l a₀ =>
          rw [hrec] at h
          simp only [Prod.mk.injEq] at h
          rw [← h.1] at hc'
          rcases List.mem_cons.mp hc' with h' | hc''
          · rw [h']
            exact ⟨c, List.mem_cons_self _ _, rfl, rfl,
              Or.inr ⟨size, f64AsUsize (g * ((a : ℚ) / sumG)), hsz, rfl⟩⟩
          · obtain ⟨d, hd, he⟩ := ih gs' _ hrec c' hc''
            exact ⟨d, List.mem_cons_of_mem _ hd, he⟩


theorem passChildren_arith : ∀ (cs : List (Child C)) (a g : ℕ) {cs' : List (Child C)}
    {a' g' : ℕ}, passChildren cs a g = (cs', a', g') → 1 ≤ a →
    a' + seatedSum cs' = a + seatedSum cs ∧ seatedCount cs' = seatedCount cs := by
  intro cs
  induction cs with
  | nil =>
    intro a g cs' a' g' h ha
    simp only [passChildren, Prod.mk.injEq] at h
    obtain ⟨h1, h2, h3⟩ := h
    subst h2
    rw [← h1]
    exact ⟨rfl, rfl⟩
  | cons c rest ih =>
    intro a g cs' a' g' h ha
    cases hsz : c.size with
    | none =>
      simp only [passChildren, hsz] at h
      cases hrec : passChildren rest a g with
      | mk l p =>
        obtain ⟨a₀, g₀⟩ := p
        rw [hrec] at h
        simp only [Prod.mk.injEq] at h
        obtain ⟨h1, h2, h3⟩ := h
        subst h2
        obtain ⟨ih1, ih2⟩ := ih a g hrec ha
        rw [← h1]
        simp only [seatedSum_cons, seatedCount_cons, hsz]
        constructor
        · simpa using ih1
        · simpa using ih2
    | some size =>
      simp only [passChildren, hsz] at h
      split at h
      · split at h
        · rename_i hz
          simp only [Prod.mk.injEq] at h
          obtain ⟨h1, h2, h3⟩ := h
          subst h2
          rw [← h1]
          simp only [seatedSum_cons, seatedCount_cons, hsz, Option.getD_some,
            Option.isSome_some, if_true]
          constructor
          · omega
          · trivial
        · rename_i hz
          cases hrec : passChildren rest (a - 1) (g + 1) with
          | mk l p =>
            obtain ⟨a₀, g₀⟩ := p
            rw [hrec] at h
            simp only [Prod.mk.injEq] at h
            obtain ⟨h1, h2, h3⟩ := h
            subst h2
            obtain ⟨ih1, ih2⟩ := ih (a - 1) (g + 1) hrec (by omega)
            rw [← h1]
            simp only [seatedSum_cons, seatedCount_cons, hsz, Option.getD_some,
              Option.isSome_some, if_true]
            constructor
            · omega
            · simpa using ih2
      · cases hrec : passChildren rest a g with
        | mk l p =>
          obtain ⟨a₀, g₀⟩ := p
          rw [hrec] at h
          simp only [Prod.mk.injEq] at h
          obtain ⟨h1, h2, h3⟩ := h
          subst h2
          obtain ⟨ih1, ih2⟩ := ih a g hrec ha
          rw [← h1]
          simp only [seatedSum_cons, seatedCount_cons, hsz, Option.getD_some,
            Option.isSome_some, if_true]
          constructor
          · omega
          · simpa using ih2

theorem loop3b_arith : ∀ (fuel : ℕ) (cs : List (Child C)) (a : ℕ) {cs' : List (Child C)}
    {a' : ℕ}, loop3b fuel cs a = (cs', a') →
    a' + seatedSum cs' = a + seatedSum cs ∧ seatedCount cs' = seatedCount cs := by
  intro fuel
  induction fuel with
  | zero =>
    intro cs a cs' a' h
    simp only [loop3b, Prod.mk.injEq] at h
    obtain ⟨h1, h2⟩ := h
    subst h2
    rw [← h1]
    exact ⟨rfl, rfl⟩
  | succ f ih =>
    intro cs a cs' a' h
    simp only [loop3b] at h
    split at h
    · simp only [Prod.mk.injEq] at h
      obtain ⟨h1, h2⟩ := h
      subst h2
      rw [← h1]
      exact ⟨rfl, rfl⟩
    · rename_i ha
      cases hrec : passChildren cs a 0 with
      | mk cs₁ p =>
        obtain ⟨a₁, g₁⟩ := p
        rw [hrec] at h
        obtain ⟨hp1, hp2⟩ := passChildren_arith cs a 0 hrec (by omega)
        split at h
        · simp only [Prod.mk.injEq] at h
          obtain ⟨h1, h2⟩ := h
          subst h2
          rw [← h1]
          exact ⟨hp1, hp2⟩
        · obtain ⟨ih1, ih2⟩ := ih cs₁ a₁ h
          exact ⟨by omega, by omega⟩

theorem passChildren_mem : ∀ (cs : List (Child C)) (a g : ℕ) {cs' : List (Child C)}
    {a' g' : ℕ}, passChildren cs a g = (cs', a', g') →
    ∀ c' ∈ cs', ∃ c ∈ cs, c'.content = c.content ∧ c'.constraints = c.constraints ∧
      (c'.size = c.size ∨ ∃ s n, c.size = some s ∧ c'.size = some (s + n)) := by
  intro cs
  induction cs with
  | nil =>
    intro a g cs' a' g' h c' hc'
    simp only [passChildren, Prod.mk.injEq] at h
    rw [← h.1] at hc'
    simp at hc'
  | cons c rest ih =>
    intro a g cs' a' g' h c' hc'
    cases hsz : c.size with
    | none =>
      simp only [passChildren, hsz] at h
      cases hrec : passChildren rest a g with
      | mk l p =>
        obtain ⟨a₀, g₀⟩ := p
        rw [hrec] at h
        simp only [Prod.mk.injEq] at h
        rw [← h.1] at hc'
        rcases List.mem_cons.mp hc' with h' | hc''
        · rw [h']
          exact ⟨c, List.mem_cons_self _ _, rfl, rfl, Or.inl rfl⟩
        · obtain ⟨d, hd, he⟩ := ih a g hrec c' hc''
          exact ⟨d, List.mem_cons_of_mem _ hd, he⟩
    | some size =>
      simp only [passChildren, hsz] at h
      split at h
      · split at h
        · simp only [Prod.mk.injEq] at h
          rw [← h.1] at hc'
          rcases List.mem_cons.mp hc' with h' | hc''
          · rw [h']
            exact ⟨c, List.mem_cons_self _ _, rfl, rfl, Or.inr ⟨size, 1, hsz, rfl⟩⟩
          · exact ⟨c', List.mem_cons_of_mem _ hc'', rfl, rfl, Or.inl rfl⟩
        · cases hrec : passChildren rest (a - 1) (g + 1) with
          | mk l p =>
            obtain ⟨a₀, g₀⟩ := p
            rw [hrec] at h
            simp only [Prod.mk.injEq] at h
            rw [← h.1] at hc'
            rcases List.mem_cons.mp hc' with h' | hc''
            · rw [h']
              exact ⟨c, List.mem_cons_self _ _, rfl, rfl, Or.inr ⟨size, 1, hsz, rfl⟩⟩
            · obtain ⟨d, hd, he⟩ := ih (a - 1) (g + 1) hrec c' hc''
              exact ⟨d, List.mem_cons_of_mem _ hd, he⟩
      · cases hrec : passChildren rest a g with
        | mk l p =>
          obtain ⟨a₀, g₀⟩ := p
          rw [hrec] at h
          simp only [Prod.mk.injEq] at h
          rw [← h.1] at hc'
          rcases List.mem_cons.mp hc' with h' | hc''
          · rw [h']
            exact ⟨c, List.mem_cons_self _ _, rfl, rfl, Or.inl rfl⟩
          · obtain ⟨d, hd, he⟩ := ih a g hrec c' hc''
            exact ⟨d, List.mem_cons_of_mem _ hd, he⟩

theorem loop3b_mem : ∀ (fuel : ℕ) (cs : List (Child C)) (a : ℕ) {cs' : List (Child C)}
    {a' : ℕ}, loop3b fuel cs a = (cs', a') →
    ∀ c' ∈ cs', ∃ c ∈ cs, c'.content = c.content ∧ c'.constraints = c.constraints ∧
      (c'.size = c.size ∨ ∃ s n, c.size = some s ∧ c'.size = some (s + n)) := by
  intro fuel
  induction fuel with
  | zero =>
    intro cs a cs' a' h c' hc'
    simp only [loop3b, Prod.mk.injEq] at h
    rw [← h.1] at hc'
    exact ⟨c', hc', rfl, rfl, Or.inl rfl⟩
  | succ f ih =>
    intro cs a cs' a' h c' hc'
    simp only [loop3b] at h
    split at h
    · simp only [Prod.mk.injEq] at h
      rw [← h.1] at hc'
      exact ⟨c', hc', rfl, rfl, Or.inl rfl⟩
    · cases hrec : passChildren cs a 0 with
      | mk cs₁ p =>
        obtain ⟨a₁, g₁⟩ := p
        rw [hrec] at h
        split at h
        · simp only [Prod.mk.injEq] at h
          rw [← h.1] at hc'
          exact passChildren_mem cs a 0 hrec c' hc'
        · obtain ⟨d, hd, he1, he2, he3⟩ := ih cs₁ a₁ h c' hc'
          obtain ⟨e, he, hf1, hf2, hf3⟩ := passChildren_mem cs a 0 hrec d hd
          refine ⟨e, he, he1.trans hf1, he2.trans hf2, ?_⟩
          rcases he3 with h3 | ⟨s, n, hs, hs'⟩
          · rcases hf3 with h4 | ⟨s, n, hs, hs'⟩
            · exact Or.inl (h3.trans h4)
            · exact Or.inr ⟨s, n, hs, h3.trans hs'⟩
          · rcases hf3 with h4 | ⟨t, n', ht, ht'⟩
            · exact Or.inr ⟨s, n, h4 ▸ hs, hs'⟩
            · rw [ht'] at hs
              simp only [Option.some.injEq] at hs
              exact Or.inr ⟨t, n' + n, ht, by rw [hs'] ; rw [← hs] ; congr 1 ; omega⟩


theorem phase3Loop_status (sumG : ℚ) : ∀ (cs : List (Child C)) (gs : List ℚ) (a : ℕ)
    {cs' : List (Child C)} {a' : ℕ}, phase3Loop sumG cs gs a = (cs', a') → ∀ (i : ℕ),
    (cs'[i]?).map (fun (c : Child C) => c.size.isSome) = (cs[i]?).map (fun (c : Child C) => c.size.isSome) := by
  intro cs
  induction cs with
  | nil =>
    intro gs a cs' a' h i
    simp only [phase3Loop, Prod.mk.injEq] at h
    rw [← h.1]
  | cons c rest ih =>
    intro gs a cs' a' h i
    cases gs with
    | nil =>
      simp only [phase3Loop, Prod.mk.injEq] at h
      rw [← h.1]
    | cons g gs' =>
      cases hsz : c.size with
      | none =>
        simp only [phase3Loop, hsz] at h
        cases hrec : phase3Loop sumG rest gs' a with
        | mk l a₀ =>
          rw [hrec] at h
          simp only [Prod.mk.injEq] at h
          rw [← h.1]
          cases i with
          | zero => simp [hsz]
          | succ j => simpa using ih gs' a hrec j
      | some size =>
        simp only [phase3Loop, hsz] at h
        cases hrec : phase3Loop sumG rest gs' (a - f64AsUsize (g * ((a : ℚ) / sumG))) with
        | mk l a₀ =>
          rw [hrec] at h
          simp only [Prod.mk.injEq] at h
          rw [← h.1]
          cases i with
          | zero => simp [hsz]
          | succ j => simpa using ih gs' _ hrec j

theorem passChildren_status : ∀ (cs : List (Child C)) (a g : ℕ) {cs' : List (Child C)}
    {a' g' : ℕ}, passChildren cs a g = (cs', a', g') → ∀ (i : ℕ),
    (cs'[i]?).map (fun (c : Child C) => c.size.isSome) = (cs[i]?).map (fun (c : Child C) => c.size.isSome) := by
  intro cs
  induction cs with
  | nil =>
    intro a g cs' a' g' h i
    simp only [passChildren, Prod.mk.injEq] at h
    rw [← h.1]
  | cons c rest ih =>
    intro a g cs' a' g' h i
    cases hsz : c.size with
    | none =>
      simp only [passChildren, hsz] at h
      cases hrec : passChildren rest a g with
      | mk l p =>
        obtain ⟨a₀, g₀⟩ := p
        rw [hrec] at h
        simp only [Prod.mk.injEq] at h
        rw [← h.1]
        cases i with
        | zero => simp [hsz]
        | succ j => simpa using ih a g hrec j
    | some size =>
      simp only [passChildren, hsz] at h
      split at h
      · split at h
        · simp only [Prod.mk.injEq] at h
          rw [← h.1]
          cases i with
          | zero => simp [hsz]
          | succ j => simp
        · cases hrec : passChildren rest (a - 1) (g + 1) with
          | mk l p =>
            obtain ⟨a₀, g₀⟩ := p
            rw [hrec] at h
            simp only [Prod.mk.injEq] at h
            rw [← h.1]
            cases i with
            | zero => simp [hsz]
            | succ j => simpa using ih (a - 1) (g + 1) hrec j
      · cases hrec : passChildren rest a g with
        | mk l p =>
          obtain ⟨a₀, g₀⟩ := p
          rw [hrec] at h
          simp only [Prod.mk.injEq] at h
          rw [← h.1]
          cases i with
          | zero => simp [hsz]
          | succ j => simpa using ih a g hrec j

theorem loop3b_status : ∀ (fuel : ℕ) (cs : List (Child C)) (a : ℕ) {cs' : List (Child C)}
    {a' : ℕ}, loop3b fuel cs a = (cs', a') → ∀ (i : ℕ),
    (cs'[i]?).map (fun (c : Child C) => c.size.isSome) = (cs[i]?).map (fun (c : Child C) => c.size.isSome) := by
  intro fuel
  induction fuel with
  | zero =>
    intro cs a cs' a' h i
    simp only [loop3b, Prod.mk.injEq] at h
    rw [← h.1]
  | succ f ih =>
    intro cs a cs' a' h i
    simp only [loop3b] at h
    split at h
    · simp only [Prod.mk.injEq] at h
      rw [← h.1]
    · cases hrec : passChildren cs a 0 with
      | mk cs₁ p =>
        obtain ⟨a₁, g₁⟩ := p
        rw [hrec] at h
        split at h
        · simp only [Prod.mk.injEq] at h
          rw [← h.1]
          exact passChildren_status cs a 0 hrec i
        · exact (ih cs₁ a₁ h i).trans (passChildren_status cs a 0 hrec i)

theorem optPairsFrom_required (cs : List (Child C)) : ∀ (k : ℕ),
    (∀ (t : ℕ) (d : Child C), cs[t]? = some d → d.is_optional = false) →
    optPairsFrom k cs = [] := by
  induction cs with
  | nil => intro k _; rfl
  | cons c rest ih =>
    intro k hreq
    have hc : c.is_optional = false := hreq 0 c (by simp)
    simp only [optPairsFrom, hc, Bool.false_eq_true, if_false]
    exact ih (k + 1) (fun t d h => hreq (t + 1) d (by simpa using h))

theorem optPairsFrom_one (cs : List (Child C)) : ∀ (k j : ℕ) (cj : Child C),
    cs[j]? = some cj → cj.is_optional = true →
    (∀ (t : ℕ) (d : Child C), cs[t]? = some d → t ≠ j → d.is_optional = false) →
    optPairsFrom k cs = [(k + j, cj)] := by
  induction cs with
  | nil => intro k j cj h _ _; simp at h
  | cons c rest ih =>
    intro k j cj hj hopt hreq
    cases j with
    | zero =>
      simp only [List.getElem?_cons_zero, Option.some.injEq] at hj
      subst hj
      simp only [optPairsFrom, hopt, if_true]
      rw [optPairsFrom_required rest (k + 1)
        (fun t d h => hreq (t + 1) d (by simpa using h) (by omega))]
      simp
    | succ j' =>
      simp only [List.getElem?_cons_succ] at hj
      have hc : c.is_optional = false := hreq 0 c (by simp) (by omega)
      simp only [optPairsFrom, hc, Bool.false_eq_true, if_false]
      rw [ih (k + 1) j' cj hj hopt
        (fun t d h ht => hreq (t + 1) d (by simpa using h) (by omega))]
      have : k + 1 + j' = k + (j' + 1) := by omega
      rw [this]

theorem optPairsFrom_two (cs : List (Child C)) : ∀ (k i j : ℕ) (ci cj : Child C),
    i < j → cs[i]? = some ci → cs[j]? = some cj →
    ci.is_optional = true → cj.is_optional = true →
    (∀ (t : ℕ) (d : Child C), cs[t]? = some d → t ≠ i → t ≠ j → d.is_optional = false) →
    optPairsFrom k cs = [(k + i, ci), (k + j, cj)] := by
  induction cs with
  | nil => intro k i j ci cj _ h _ _ _ _; simp at h
  | cons c rest ih =>
    intro k i j ci cj hij hi hj hio hjo hreq
    cases i with
    | zero =>
      simp only [List.getElem?_cons_zero, Option.some.injEq] at hi
      subst hi
      obtain ⟨j', rfl⟩ : ∃ j', j = j' + 1 := ⟨j - 1, by omega⟩
      simp only [List.getElem?_cons_succ] at hj
      simp only [optPairsFrom, hio, if_true]
      rw [optPairsFrom_one rest (k + 1) j' cj hj hjo
        (fun t d h ht => hreq (t + 1) d (by simpa using h) (by omega) (by omega))]
      have : k + 1 + j' = k + (j' + 1) := by omega
      rw [this]
      simp
    | succ i' =>
      obtain ⟨j', rfl⟩ : ∃ j', j = j' + 1 := ⟨j - 1, by omega⟩
      simp only [List.getElem?_cons_succ] at hi hj
      have hc : c.is_optional = false := hreq 0 c (by simp) (by omega) (by omega)
      simp only [optPairsFrom, hc, Bool.false_eq_true, if_false]
      rw [ih (k + 1) i' j' ci cj (by omega) hi hj hio hjo
        (fun t d h ht1 ht2 => hreq (t + 1) d (by simpa using h) (by omega) (by omega))]
      have h1 : k + 1 + i' = k + (i' + 1) := by omega
      have h2 : k + 1 + j' = k + (j' + 1) := by omega
      rw [h1, h2]

theorem insertionSort_two (p q : ℕ × Child C) :
    List.insertionSort pairLE [p, q] = if pairLE p q then [p, q] else [q, p] := by
  simp [List.insertionSort, List.orderedInsert]


theorem build_ok_elim (a m : ℕ) (cs : List (Child C)) (con : Container C)
    (h : build a m cs = .ok con) :
    ∃ cs1 a1 k1 cs2 a2 k2 cs3 a3 cs4 a4,
      phase1 m cs a 0 = .ok (cs1, a1, k1) ∧
      phase2 m (phase2Sorted cs1) cs1 a1 k1 = (cs2, a2, k2) ∧
      phase3Loop (growths cs2 a2).sum cs2 (growths cs2 a2) a2 = (cs3, a3) ∧
      loop3b a3 cs3 a3 = (cs4, a4) ∧ con.children = cs4 := by
  simp only [build, ContainerBuilder.build] at h
  cases hp1 : phase1 m cs a 0 with
  | error e => rw [hp1] at h; simp at h
  | ok t =>
    obtain ⟨cs1, a1, k1⟩ := t
    rw [hp1] at h
    simp only at h
    cases hp2 : phase2 m (phase2Sorted cs1) cs1 a1 k1 with
    | mk cs2 p =>
      obtain ⟨a2, k2⟩ := p
      rw [hp2] at h
      cases hp3 : phase3Loop (growths cs2 a2).sum cs2 (growths cs2 a2) a2 with
      | mk cs3 a3 =>
        rw [hp3] at h
        cases hp4 : loop3b a3 cs3 a3 with
        | mk cs4 a4 =>
          rw [hp4] at h
          simp only [Except.ok.injEq] at h
          exact ⟨cs1, a1, k1, cs2, a2, k2, cs3, a3, cs4, a4, rfl, hp2, hp3, hp4,
            by rw [← h]⟩

attribute [local semireducible] Rat.add Rat.mul Rat.inv

theorem phase3Loop_zero : ∀ (cs : List (Child C)) (gs : List ℚ) (a : ℕ) (sumG : ℚ),
    (∀ g ∈ gs, g = 0) → phase3Loop sumG cs gs a = (cs, a) := by
  intro cs
  induction cs with
  | nil => intro gs a sumG _; cases gs <;> rfl
  | cons c rest ih =>
    intro gs a sumG hz
    cases gs with
    | nil => rfl
    | cons g gs' =>
      have hg0 : g = 0 := hz g (List.mem_cons_self _ _)
      have hz' : ∀ g ∈ gs', g = 0 := fun x hx => hz x (List.mem_cons_of_mem _ hx)
      obtain ⟨cnt, cst, sz⟩ := c
      cases hsz : sz with
      | none =>
        simp only [phase3Loop, hsz]
        rw [ih gs' a sumG hz']
      | some size =>
        have hgu : f64AsUsize (g * ((a : ℚ) / sumG)) = 0 := by
          rw [hg0]
          simp [f64AsUsize]
        simp only [phase3Loop, hsz, hgu]
        rw [ih gs' (a - 0) sumG hz']
        simp

/-- C5: when the total growth is zero, the whole proportional pass is a
no-op: no size changes and the available space is untouched.  The grow
weights are assumed non-negative, as the data model declares; this is also
the regime in which the source f64 computation (0.0 times an infinite or NaN
ratio, cast to usize) gives 0 for every child. -/
theorem C5_zero_growth_noop (cs : List (Child C)) (a : ℕ)
    (hg : ∀ c ∈ cs, 0 ≤ c.constraints.grow)
    (h0 : (growths cs a).sum = 0) :
    phase3Loop (growths cs a).sum cs (growths cs a) a = (cs, a) := by
  have hnn : ∀ g ∈ growths cs a, 0 ≤ g := by
    intro g hgm
    simp only [growths, List.mem_map] at hgm
    obtain ⟨c, hc, rfl⟩ := hgm
    unfold growthOf
    cases c.size with
    | none => simp
    | some size => exact mul_nonneg (hg c hc) (Nat.cast_nonneg _)
  have hz : ∀ g ∈ growths cs a, g = 0 := fun g hgm =>
    le_antisymm (h0 ▸ List.single_le_sum hnn g hgm) (hnn g hgm)
  exact phase3Loop_zero cs (growths cs a) a _ hz

theorem C5_witness :
    (∀ c ∈ [(⟨0, ⟨5, some 5, .required, 1⟩, some 5⟩ : Child ℕ)], 0 ≤ c.constraints.grow) ∧
    (growths [(⟨0, ⟨5, some 5, .required, 1⟩, some 5⟩ : Child ℕ)] 3).sum = 0 ∧
    phase3Loop (growths [(⟨0, ⟨5, some 5, .required, 1⟩, some 5⟩ : Child ℕ)] 3).sum
      [(⟨0, ⟨5, some 5, .required, 1⟩, some 5⟩ : Child ℕ)]
      (growths [(⟨0, ⟨5, some 5, .required, 1⟩, some 5⟩ : Child ℕ)] 3) 3 =
      ([(⟨0, ⟨5, some 5, .required, 1⟩, some 5⟩ : Child ℕ)], 3) := by
  refine ⟨?_, ?_, C5_zero_growth_noop _ _ ?_ ?_⟩ <;> decide

/-- C3: build returns an error exactly when phase 1 hits a required child
whose min plus margin cost exceeds the remaining budget, walking children in
input order with optional children consuming nothing; the only error value
is NotEnoughSpace, and the later passes can never raise or avert it. -/
theorem C3_raises_iff (a m : ℕ) (cs : List (Child C)) :
    (∀ e, build a m cs = .error e → e = .NotEnoughSpace) ∧
    ((∃ e, build a m cs = .error e) ↔ requiredOverflow m cs a 0 = true) := by
  constructor
  · intro e _; cases e; rfl
  · constructor
    · rintro ⟨e, h⟩
      cases e
      simp only [build, ContainerBuilder.build] at h
      cases hp1 : phase1 m cs a 0 with
      | error e' => cases e'; exact (phase1_error_iff m cs a 0).mp hp1
      | ok t =>
        obtain ⟨cs1, a1, k1⟩ := t
        rw [hp1] at h
        simp at h
    · intro hro
      refine ⟨.NotEnoughSpace, ?_⟩
      have hp1 : phase1 m cs a 0 = .error .NotEnoughSpace :=
        (phase1_error_iff m cs a 0).mpr hro
      simp only [build, ContainerBuilder.build, hp1]

theorem C3_witness :
    requiredOverflow 0 [(Child.new (0 : ℕ)).with_min 10] 5 0 = true ∧
    (∃ e, build 5 0 [(Child.new (0 : ℕ)).with_min 10] = .error e) := by
  have h := (C3_raises_iff (C := ℕ) 5 0 [(Child.new (0 : ℕ)).with_min 10]).2
  exact ⟨by decide, h.mpr (by decide)⟩

/-- C1 (code bug): with budget 10, margin 0 and a single required child with
min 0, max 1 and the default grow 1, the proportional pass hands the child
the whole remaining budget, giving it resolved size 10, strictly above its
declared maximum of 1.  The final pass guards sizes against the maximum, but
the proportional pass does not clamp its allocation to max - size. -/
theorem C1_phase3_exceeds_max :
    (build 10 0 [(Child.new (0 : ℕ)).clamp 0 1]).map Container.sizes = .ok [10] ∧
    ((Child.new (0 : ℕ)).clamp 0 1).constraints.max = some 1 ∧ (1 : ℕ) < 10 := by
  exact ⟨rfl, rfl, by omega⟩

/-- C6: the documented scenario: budget 50, margin 1, six children as in the
claim (contents numbered 0 to 5 for name, price, quantity, total, comments,
vendor); the build succeeds and the sizes are [7, 8, 8, 8, 15, 0]. -/
theorem C6_concrete_budget50 :
    ((((((((Container.builder_in (C := ℕ) 50).with_margin_between 1).with_child
        ((Child.new 0).clamp 5 10)).with_child
        (((Child.new 1).with_size 8).optional_with_priority 7)).with_child
        (((Child.new 2).with_size 8).optional_with_priority 8)).with_child
        ((Child.new 3).with_size 8)).with_child
        (((Child.new 4).with_min 10).with_grow 2)).with_child
        (((Child.new 5).with_size 60).optional_with_priority 9)).build.map
      Container.sizes = .ok [7, 8, 8, 8, 15, 0] := by
  rfl

/-- C9: the sort phase 2 uses is stable: two optional children with equal
priorities appear in the processing order of phase 2 in their original
insertion order. -/
theorem C9_stable_tie_break (cs : List (Child C)) (i j : ℕ) (ci cj : Child C)
    (hi : cs[i]? = some ci) (hj : cs[j]? = some cj)
    (hio : ci.is_optional = true) (hjo : cj.is_optional = true)
    (heq : sortKey ci = sortKey cj) (hij : i < j) :
    ∃ p q : ℕ, p < q ∧ (phase2Sorted cs)[p]? = some (i, ci) ∧
      (phase2Sorted cs)[q]? = some (j, cj) := by
  have hmi : (i, ci) ∈ phase2Sorted cs := by
    simp only [phase2Sorted, List.mem_insertionSort]
    rw [optPairsFrom_mem]
    exact ⟨i, by omega, by simpa using hi, hio⟩
  have hmj : (j, cj) ∈ phase2Sorted cs := by
    simp only [phase2Sorted, List.mem_insertionSort]
    rw [optPairsFrom_mem]
    exact ⟨j, by omega, by simpa using hj, hjo⟩
  have hs : List.Sorted pairLE (phase2Sorted cs) := phase2Sorted_sorted cs
  obtain ⟨p, hp, hgp⟩ := List.getElem_of_mem hmi
  obtain ⟨q, hq, hgq⟩ := List.getElem_of_mem hmj
  refine ⟨p, q, ?_, by rw [List.getElem?_eq_getElem hp, hgp],
    by rw [List.getElem?_eq_getElem hq, hgq]⟩
  rcases Nat.lt_trichotomy p q with hlt | hEq | hgt
  · exact hlt
  · exfalso
    subst hEq
    rw [hgp] at hgq
    have : i = j := congrArg Prod.fst hgq
    omega
  · exfalso
    have hrel := hs.rel_get_of_lt
      (show (⟨q, hq⟩ : Fin (phase2Sorted cs).length) < ⟨p, hp⟩ from hgt)
    simp only [List.get_eq_getElem, hgp, hgq] at hrel
    unfold pairLE at hrel
    simp only at hrel
    omega

theorem C9_witness :
    ∃ p q : ℕ, p < q ∧
      (phase2Sorted [(Child.new (0 : ℕ)).optional_with_priority 3,
          (Child.new 1).optional_with_priority 3])[p]? =
        some (0, (Child.new (0 : ℕ)).optional_with_priority 3) ∧
      (phase2Sorted [(Child.new (0 : ℕ)).optional_with_priority 3,
          (Child.new 1).optional_with_priority 3])[q]? =
        some (1, (Child.new (1 : ℕ)).optional_with_priority 3) :=
  C9_stable_tie_break _ 0 1 _ _ rfl rfl rfl rfl rfl (by omega)


/-- C7: on any successful build, every seated child's resolved size is at
least its declared minimum: phases 1 and 2 seat at exactly min, and the two
growth passes only ever increase sizes. -/
theorem C7_min_respected (a m : ℕ) (cs : List (Child C)) (con : Container C)
    (h : build a m cs = .ok con) :
    ∀ c ∈ con.children, ∀ s, c.size = some s → c.constraints.min ≤ s := by
  obtain ⟨cs1, a1, k1, cs2, a2, k2, cs3, a3, cs4, a4, hp1, hp2, hp3, hp4, hcon⟩ :=
    build_ok_elim a m cs con h
  have hmap := phase1_ok_map m cs a 0 hp1
  have P1 : ∀ c ∈ cs1, ∀ s, c.size = some s → c.constraints.min ≤ s := by
    intro c hc s hs
    rw [hmap] at hc
    simp only [List.mem_map] at hc
    obtain ⟨d, hd, rfl⟩ := hc
    simp only at hs
    split at hs
    · exact absurd hs (by simp)
    · simp only [Option.some.injEq] at hs
      show d.constraints.min ≤ s
      omega
  have P2 : ∀ c ∈ cs2, ∀ s, c.size = some s → c.constraints.min ≤ s := by
    intro c hc s hs
    rcases phase2_mem m _ cs1 a1 k1 hp2 c hc with hc1 | ⟨p, hpmem, rfl⟩
    · exact P1 c hc1 s hs
    · simp only [Option.some.injEq] at hs
      show p.2.constraints.min ≤ s
      omega
  have P3 : ∀ c ∈ cs3, ∀ s, c.size = some s → c.constraints.min ≤ s := by
    intro c hc s hs
    obtain ⟨d, hd, h1, h2, h3⟩ := phase3Loop_mem _ cs2 _ a2 hp3 c hc
    rcases h3 with hEq | ⟨s0, n, hs0, hsome⟩
    · rw [h2]
      exact P2 d hd s (by rw [← hEq, hs])
    · rw [hsome] at hs
      simp only [Option.some.injEq] at hs
      have := P2 d hd s0 hs0
      rw [h2]
      omega
  intro c hc s hs
  rw [hcon] at hc
  obtain ⟨d, hd, h1, h2, h3⟩ := loop3b_mem a3 cs3 a3 hp4 c hc
  rcases h3 with hEq | ⟨s0, n, hs0, hsome⟩
  · rw [h2]
    exact P3 d hd s (by rw [← hEq, hs])
  · rw [hsome] at hs
    simp only [Option.some.injEq] at hs
    have := P3 d hd s0 hs0
    rw [h2]
    omega

theorem C7_witness :
    (⟨0, ⟨0, some 1, .required, 1⟩, some 10⟩ : Child ℕ).constraints.min ≤ 10 :=
  C7_min_respected 10 0 [(Child.new (0 : ℕ)).clamp 0 1]
    ⟨[⟨0, ⟨0, some 1, .required, 1⟩, some 10⟩]⟩ (by rfl)
    ⟨0, ⟨0, some 1, .required, 1⟩, some 10⟩ (List.mem_singleton.mpr rfl) 10 rfl

/-- C8: on any successful build, a child whose resolved size is none is
Optional: required children are all seated by phase 1 and no later pass ever
clears a size. -/
theorem C8_excluded_only_optional (a m : ℕ) (cs : List (Child C)) (con : Container C)
    (h : build a m cs = .ok con) :
    ∀ c ∈ con.children, c.size = none → c.is_optional = true := by
  obtain ⟨cs1, a1, k1, cs2, a2, k2, cs3, a3, cs4, a4, hp1, hp2, hp3, hp4, hcon⟩ :=
    build_ok_elim a m cs con h
  have hmap := phase1_ok_map m cs a 0 hp1
  have P1 : ∀ c ∈ cs1, c.size = none → c.is_optional = true := by
    intro c hc hs
    rw [hmap] at hc
    simp only [List.mem_map] at hc
    obtain ⟨d, hd, rfl⟩ := hc
    simp only at hs
    by_cases hopt : d.is_optional
    · exact hopt
    · rw [if_neg hopt] at hs
      exact absurd hs (by simp)
  have P2 : ∀ c ∈ cs2, c.size = none → c.is_optional = true := by
    intro c hc hs
    rcases phase2_mem m _ cs1 a1 k1 hp2 c hc with hc1 | ⟨p, hpmem, rfl⟩
    · exact P1 c hc1 hs
    · exact absurd hs (by simp)
  have hoptEq : ∀ (c d : Child C), c.constraints = d.constraints →
      c.is_optional = d.is_optional := by
    intro c d hcd
    unfold Child.is_optional
    rw [hcd]
  have P3 : ∀ c ∈ cs3, c.size = none → c.is_optional = true := by
    intro c hc hs
    obtain ⟨d, hd, h1, h2, h3⟩ := phase3Loop_mem _ cs2 _ a2 hp3 c hc
    rcases h3 with hEq | ⟨s0, n, hs0, hsome⟩
    · rw [hoptEq c d h2]
      exact P2 d hd (by rw [← hEq, hs])
    · rw [hsome] at hs
      exact absurd hs (by simp)
  intro c hc hs
  rw [hcon] at hc
  obtain ⟨d, hd, h1, h2, h3⟩ := loop3b_mem a3 cs3 a3 hp4 c hc
  rcases h3 with hEq | ⟨s0, n, hs0, hsome⟩
  · rw [hoptEq c d h2]
    exact P3 d hd (by rw [← hEq, hs])
  · rw [hsome] at hs
    exact absurd hs (by simp)

theorem C8_witness :
    (⟨0, ⟨100, none, .optional 9, 1⟩, none⟩ : Child ℕ).is_optional = true :=
  C8_excluded_only_optional 10 0
    [((Child.new (0 : ℕ)).with_min 100).optional_with_priority 9,
      ((Child.new 1).with_min 5).optional_with_priority 1]
    ⟨[⟨0, ⟨100, none, .optional 9, 1⟩, none⟩, ⟨1, ⟨5, none, .optional 1, 1⟩, some 10⟩]⟩
    (by rfl) ⟨0, ⟨100, none, .optional 9, 1⟩, none⟩ (by simp) rfl

/-- C2: budget conservation: on any successful build with the non-negative
grow weights the data model prescribes, the seated sizes plus the margins
between consecutive seated children never exceed the original budget. -/
theorem C2_budget_conservation (a m : ℕ) (cs : List (Child C)) (con : Container C)
    (h : build a m cs = .ok con)
    (hg : ∀ c ∈ cs, 0 ≤ c.constraints.grow) :
    seatedSum con.children + m * (seatedCount con.children - 1) ≤ a := by
  obtain ⟨cs1, a1, k1, cs2, a2, k2, cs3, a3, cs4, a4, hp1, hp2, hp3, hp4, hcon⟩ :=
    build_ok_elim a m cs con h
  have hmap := phase1_ok_map m cs a 0 hp1
  obtain ⟨e1, e2⟩ := phase1_ok_arith m cs a 0 hp1
  have horig : ∀ c ∈ cs1, c.is_optional = true → c.size = none := by
    intro c hc hopt
    rw [hmap] at hc
    simp only [List.mem_map] at hc
    obtain ⟨d, hd, rfl⟩ := hc
    simp only
    have : d.is_optional = true := hopt
    rw [if_pos this]
  obtain ⟨f1, f2⟩ := phase2_arith m _ cs1 a1 k1 hp2 (phase2Sorted_lookups cs1 horig)
    (phase2Sorted_keys_nodup cs1)
  have hg2 : ∀ c ∈ cs2, 0 ≤ c.constraints.grow := by
    intro c hc
    rcases phase2_mem m _ cs1 a1 k1 hp2 c hc with hc1 | ⟨p, hpmem, rfl⟩
    · rw [hmap] at hc1
      simp only [List.mem_map] at hc1
      obtain ⟨d, hd, rfl⟩ := hc1
      exact hg d hd
    · obtain ⟨hpl, -⟩ := phase2Sorted_lookups cs1 horig p hpmem
      have hp2mem : p.2 ∈ cs1 := List.getElem?_mem hpl
      rw [hmap] at hp2mem
      simp only [List.mem_map] at hp2mem
      obtain ⟨d, hd, he⟩ := hp2mem
      have : p.2.constraints = d.constraints := by rw [← he]
      show 0 ≤ p.2.constraints.grow
      rw [this]
      exact hg d hd
  have hgs0 : ∀ g ∈ growths cs2 a2, 0 ≤ g := by
    intro g hgm
    simp only [growths, List.mem_map] at hgm
    obtain ⟨c, hc, rfl⟩ := hgm
    unfold growthOf
    cases c.size with
    | none => simp
    | some size => exact mul_nonneg (hg2 c hc) (Nat.cast_nonneg _)
  obtain ⟨g1, g2⟩ := phase3Loop_arith _ cs2 _ a2 hp3
    (fun g hgm => ⟨hgs0 g hgm, List.single_le_sum hgs0 g hgm⟩)
  obtain ⟨l1, l2⟩ := loop3b_arith a3 cs3 a3 hp4
  rw [hcon]
  have hc42 : seatedCount cs4 = k2 := by
    rw [l2, g2]
    omega
  rw [hc42]
  simp only [Nat.zero_sub, Nat.mul_zero, Nat.add_zero] at e1
  generalize m * (k2 - 1) = X at f1 ⊢
  generalize m * (k1 - 1) = Y at e1 f1
  omega

theorem C2_witness :
    seatedSum [(⟨0, ⟨0, some 1, .required, 1⟩, some 10⟩ : Child ℕ)] +
      0 * (seatedCount [(⟨0, ⟨0, some 1, .required, 1⟩, some 10⟩ : Child ℕ)] - 1) ≤ 10 :=
  C2_budget_conservation 10 0 [(Child.new (0 : ℕ)).clamp 0 1]
    ⟨[⟨0, ⟨0, some 1, .required, 1⟩, some 10⟩]⟩ (by rfl) (by decide)


/-- C10: the capacity subtraction max - size of the growth pass cannot
underflow when every child with a declared max has max at least min: at the
point the capacities are computed every seated child sits at exactly its
min, which is then at most its max.  The builder itself does not enforce
max at least min: chaining with_max 1 and then with_min 5 yields min 5 with
max 1, and after phase 1 such a child is seated at 5 with max 1, so the
source usize subtraction 1 - 5 would underflow there (the model truncates). -/
theorem C10_capacity_guard (cs : List (Child C)) (a m : ℕ)
    (cs1 : List (Child C)) (a1 k1 : ℕ) (cs2 : List (Child C)) (a2 k2 : ℕ)
    (hp1 : phase1 m cs a 0 = .ok (cs1, a1, k1))
    (hp2 : phase2 m (phase2Sorted cs1) cs1 a1 k1 = (cs2, a2, k2))
    (hmx : ∀ c ∈ cs, ∀ mx, c.constraints.max = some mx → c.constraints.min ≤ mx) :
    (∀ c ∈ cs2, ∀ s mx, c.size = some s → c.constraints.max = some mx → s ≤ mx) ∧
    (((Child.new (0 : ℕ)).with_max 1).with_min 5).constraints.min = 5 ∧
    (((Child.new (0 : ℕ)).with_max 1).with_min 5).constraints.max = some 1 ∧
    (1 : ℕ) < 5 ∧
    phase1 0 [((Child.new (0 : ℕ)).with_max 1).with_min 5] 10 0 =
      .ok ([⟨0, ⟨5, some 1, .required, 1⟩, some 5⟩], 5, 1) ∧
    phase2Sorted [(⟨0, ⟨5, some 1, .required, 1⟩, some 5⟩ : Child ℕ)] = [] := by
  refine ⟨?_, rfl, rfl, by omega, by rfl, by rfl⟩
  have hmap := phase1_ok_map m cs a 0 hp1
  have horig : ∀ c ∈ cs1, c.is_optional = true → c.size = none := by
    intro c hc hopt
    rw [hmap] at hc
    simp only [List.mem_map] at hc
    obtain ⟨d, hd, rfl⟩ := hc
    simp only
    have : d.is_optional = true := hopt
    rw [if_pos this]
  have Q1 : ∀ c ∈ cs1, (∀ s, c.size = some s → s = c.constraints.min) ∧
      ∃ d ∈ cs, c.constraints = d.constraints := by
    intro c hc
    rw [hmap] at hc
    simp only [List.mem_map] at hc
    obtain ⟨d, hd, rfl⟩ := hc
    refine ⟨?_, d, hd, rfl⟩
    intro s hs
    simp only at hs
    split at hs
    · exact absurd hs (by simp)
    · simp only [Option.some.injEq] at hs
      exact hs.symm
  intro c hc s mx hs hm
  have Q2 : (∀ s, c.size = some s → s = c.constraints.min) ∧
      ∃ d ∈ cs, c.constraints = d.constraints := by
    rcases phase2_mem m _ cs1 a1 k1 hp2 c hc with hc1 | ⟨p, hpmem, rfl⟩
    · exact Q1 c hc1
    · obtain ⟨hpl, -⟩ := phase2Sorted_lookups cs1 horig p hpmem
      have hp2mem : p.2 ∈ cs1 := List.getElem?_mem hpl
      obtain ⟨-, d, hd, he⟩ := Q1 p.2 hp2mem
      refine ⟨?_, d, hd, he⟩
      intro s hs
      simp only [Option.some.injEq] at hs
      exact hs.symm
  obtain ⟨hsize, d, hd, hcd⟩ := Q2
  have hs' : s = c.constraints.min := hsize s hs
  have hdm : d.constraints.max = some mx := by rw [← hcd]; exact hm
  have := hmx d hd mx hdm
  rw [hs', hcd]
  exact this

theorem C10_witness : (2 : ℕ) ≤ 4 :=
  (C10_capacity_guard [(Child.new (0 : ℕ)).clamp 2 4] 10 0
      [⟨0, ⟨2, some 4, .required, 1⟩, some 2⟩] 8 1
      [⟨0, ⟨2, some 4, .required, 1⟩, some 2⟩] 8 1
      (by rfl) (by rfl) (by decide)).1
    ⟨0, ⟨2, some 4, .required, 1⟩, some 2⟩ (by simp) 2 4 rfl rfl


/-- C4 (amended): in a successful build whose children include exactly two
Optional children, at positions i and j with priorities pi > pj, if the
higher-priority child's min plus its margin cost fits in the space left
after phase 1 while the two children together do not fit, then the
higher-priority child is seated and the lower-priority one is excluded,
whatever the insertion order of the two. -/
theorem C4_priority_amended (cs : List (Child C)) (av m : ℕ) (i j : ℕ) (ci cj : Child C)
    (pi pj : ℕ) (cs1 : List (Child C)) (a1 k1 : ℕ) (con : Container C)
    (hi : cs[i]? = some ci) (hj : cs[j]? = some cj)
    (hoi : ci.constraints.optionality = .optional pi)
    (hoj : cj.constraints.optionality = .optional pj)
    (hp : pj < pi)
    (hothers : ∀ (t : ℕ) (d : Child C), cs[t]? = some d → t ≠ i → t ≠ j →
      d.constraints.optionality = .required)
    (hp1 : phase1 m cs av 0 = .ok (cs1, a1, k1))
    (hfit : ci.constraints.min + (if 0 < k1 then m else 0) ≤ a1)
    (hnofit : a1 < ci.constraints.min + (if 0 < k1 then m else 0) + (cj.constraints.min + m))
    (hbuild : build av m cs = .ok con) :
    (∃ c, con.children[i]? = some c ∧ c.size.isSome = true) ∧
    (∃ c, con.children[j]? = some c ∧ c.size = none) := by
  have hij : i ≠ j := by
    intro hEq
    rw [hEq, hj] at hi
    simp only [Option.some.injEq] at hi
    rw [← hi, hoj] at hoi
    simp only [Optionality.optional.injEq] at hoi
    omega
  obtain ⟨cs1', a1', k1', cs2, a2, k2, cs3, a3, cs4, a4, hp1', hp2, hp3, hp4, hcon⟩ :=
    build_ok_elim av m cs con hbuild
  rw [hp1] at hp1'
  simp only [Except.ok.injEq, Prod.mk.injEq] at hp1'
  obtain ⟨hq1, hq2, hq3⟩ := hp1'
  subst hq1 hq2 hq3
  have hmap := phase1_ok_map m cs av 0 hp1
  have hleni : i < cs.length := by
    by_contra hcn
    push_neg at hcn
    rw [List.getElem?_eq_none hcn] at hi
    exact absurd hi (by simp)
  have hopti : ci.is_optional = true := by
    unfold Child.is_optional
    rw [hoi]
  have hoptj : cj.is_optional = true := by
    unfold Child.is_optional
    rw [hoj]
  have hci1 : cs1[i]? = some { ci with size := none } := by
    rw [hmap, List.getElem?_map, hi]
    simp [hopti]
  have hcj1 : cs1[j]? = some { cj with size := none } := by
    rw [hmap, List.getElem?_map, hj]
    simp [hoptj]
  have hoth1 : ∀ (t : ℕ) (d : Child C), cs1[t]? = some d → t ≠ i → t ≠ j →
      d.is_optional = false := by
    intro t d hd ht1 ht2
    rw [hmap, List.getElem?_map] at hd
    cases hdo : cs[t]? with
    | none => rw [hdo] at hd; simp at hd
    | some d0 =>
      rw [hdo] at hd
      simp only [Option.map_some', Option.some.injEq] at hd
      have hreq := hothers t d0 hdo ht1 ht2
      rw [← hd]
      show (match d0.constraints.optionality with
        | .optional _ => true | .required => false) = false
      rw [hreq]
  have hsi : sortKey ({ ci with size := none } : Child C) = pi := by
    unfold sortKey
    show (match ci.constraints.optionality with
      | .optional p => p | .required => 0) = pi
    rw [hoi]
  have hsj : sortKey ({ cj with size := none } : Child C) = pj := by
    unfold sortKey
    show (match cj.constraints.optionality with
      | .optional p => p | .required => 0) = pj
    rw [hoj]
  have hsorted : phase2Sorted cs1 =
      [(i, { ci with size := none }), (j, { cj with size := none })] := by
    rcases Nat.lt_or_ge i j with hlt | hge
    · have h2 := optPairsFrom_two cs1 0 i j _ _ hlt hci1 hcj1 hopti hoptj hoth1
      unfold phase2Sorted
      rw [h2]
      simp only [Nat.zero_add]
      rw [insertionSort_two]
      have hple : pairLE (i, ({ ci with size := none } : Child C))
          (j, { cj with size := none }) := by
        have hk : sortKey ({ cj with size := none } : Child C) <
            sortKey ({ ci with size := none } : Child C) := by
          rw [hsi, hsj]; exact hp
        exact Or.inl hk
      rw [if_pos hple]
    · have hlt : j < i := by omega
      have h2 := optPairsFrom_two cs1 0 j i _ _ hlt hcj1 hci1 hoptj hopti
        (fun t d hd ht1 ht2 => hoth1 t d hd ht2 ht1)
      unfold phase2Sorted
      rw [h2]
      simp only [Nat.zero_add]
      rw [insertionSort_two]
      have hnple : ¬ pairLE (j, ({ cj with size := none } : Child C))
          (i, { ci with size := none }) := by
        intro hcon
        have hcon' : sortKey ({ ci with size := none } : Child C) <
            sortKey ({ cj with size := none } : Child C) ∨
            (sortKey ({ cj with size := none } : Child C) =
              sortKey ({ ci with size := none } : Child C) ∧ j ≤ i) := hcon
        rcases hcon' with h1 | ⟨h1, h2'⟩
        · rw [hsi, hsj] at h1; omega
        · rw [hsi, hsj] at h1; omega
      rw [if_neg hnple]
  rw [hsorted] at hp2
  simp only [phase2] at hp2
  generalize hM : (if 0 < k1 then m else 0) = M at hp2 hfit hnofit
  rw [if_neg (by omega : ¬ a1 < ci.constraints.min + M)] at hp2
  have hpos : (0 < k1 + 1) := Nat.succ_pos k1
  rw [if_pos hpos] at hp2
  rw [if_pos (by omega :
    a1 - ci.constraints.min - M < cj.constraints.min + m)] at hp2
  simp only [Prod.mk.injEq] at hp2
  obtain ⟨hc2, ha2, hk2⟩ := hp2
  have hlen1 : i < cs1.length := by
    rw [hmap, List.length_map]
    exact hleni
  have hstat_i : cs2[i]? = some { ci with size := some ci.constraints.min } := by
    rw [← hc2]
    exact List.getElem?_set_self (by simpa using hlen1)
  have hstat_j : cs2[j]? = some { cj with size := none } := by
    rw [← hc2, List.getElem?_set_ne hij]
    exact hcj1
  have s3 := phase3Loop_status _ cs2 _ a2 hp3
  have s4 := loop3b_status a3 cs3 a3 hp4
  constructor
  · have hb : (cs4[i]?).map (fun (c : Child C) => c.size.isSome) = some true := by
      rw [s4 i, s3 i, hstat_i]
      simp
    cases hc4 : cs4[i]? with
    | none => rw [hc4] at hb; simp at hb
    | some c =>
      rw [hc4] at hb
      simp only [Option.map_some', Option.some.injEq] at hb
      exact ⟨c, by rw [hcon]; exact hc4, hb⟩
  · have hb : (cs4[j]?).map (fun (c : Child C) => c.size.isSome) = some false := by
      rw [s4 j, s3 j, hstat_j]
      simp
    cases hc4 : cs4[j]? with
    | none => rw [hc4] at hb; simp at hb
    | some c =>
      rw [hc4] at hb
      simp only [Option.map_some', Option.some.injEq] at hb
      refine ⟨c, by rw [hcon]; exact hc4, ?_⟩
      cases hcs : c.size with
      | none => rfl
      | some s => rw [hcs] at hb; simp at hb


/-- C4 counterexample to the claim as frozen: budget 10, margin 0, two
Optional children with priorities 9 and 1 and minimums 100 and 5; they
cannot both fit, the build succeeds, yet the higher-priority child is the
excluded one (it does not fit on its own) while the lower-priority child is
seated, contradicting "the higher-priority one is seated and the
lower-priority one is excluded". -/
theorem C4_counterexample :
    (build 10 0 [((Child.new (0 : ℕ)).with_min 100).optional_with_priority 9,
        ((Child.new 1).with_min 5).optional_with_priority 1]).map
      (fun con => con.children.map Child.size) = .ok [none, some 10] ∧
    (1 : ℕ) < 9 ∧ 10 < 100 + 5 := by
  exact ⟨by rfl, by omega, by omega⟩

theorem C4_witness :
    (∃ c, (⟨[⟨0, ⟨6, none, .optional 5, 1⟩, some 10⟩,
        ⟨1, ⟨5, none, .optional 2, 1⟩, none⟩]⟩ : Container ℕ).children[0]? = some c ∧
      c.size.isSome = true) ∧
    (∃ c, (⟨[⟨0, ⟨6, none, .optional 5, 1⟩, some 10⟩,
        ⟨1, ⟨5, none, .optional 2, 1⟩, none⟩]⟩ : Container ℕ).children[1]? = some c ∧
      c.size = none) :=
  C4_priority_amended
    [((Child.new (0 : ℕ)).with_min 6).optional_with_priority 5,
      ((Child.new 1).with_min 5).optional_with_priority 2]
    10 0 0 1
    (((Child.new (0 : ℕ)).with_min 6).optional_with_priority 5)
    (((Child.new (1 : ℕ)).with_min 5).optional_with_priority 2)
    5 2
    [⟨0, ⟨6, none, .optional 5, 1⟩, none⟩, ⟨1, ⟨5, none, .optional 2, 1⟩, none⟩]
    10 0
    ⟨[⟨0, ⟨6, none, .optional 5, 1⟩, some 10⟩, ⟨1, ⟨5, none, .optional 2, 1⟩, none⟩]⟩
    rfl rfl rfl rfl (by omega)
    (by
      intro t d h h1 h2
      match t with
      | 0 => exact absurd rfl h1
      | 1 => exact absurd rfl h2
      | t + 2 => simp at h)
    (by rfl) (by decide) (by decide) (by rfl)


theorem passChildren_sum : ∀ (cs : List (Child C)) (a g : ℕ) {cs' : List (Child C)}
    {a' g' : ℕ}, passChildren cs a g = (cs', a', g') → 1 ≤ a →
    a' + g' = a + g ∧ g ≤ g' := by
  intro cs
  induction cs with
  | nil =>
    intro a g cs' a' g' h ha
    simp only [passChildren, Prod.mk.injEq] at h
    omega
  | cons c rest ih =>
    intro a g cs' a' g' h ha
    cases hsz : c.size with
    | none =>
      simp only [passChildren, hsz] at h
      cases hrec : passChildren rest a g with
      | mk l p =>
        obtain ⟨a₀, g₀⟩ := p
        rw [hrec] at h
        simp only [Prod.mk.injEq] at h
        obtain ⟨ih1, ih2⟩ := ih a g hrec ha
        omega
    | some size =>
      simp only [passChildren, hsz] at h
      split at h
      · split at h
        · rename_i hz
          simp only [Prod.mk.injEq] at h
          omega
        · rename_i hz
          cases hrec : passChildren rest (a - 1) (g + 1) with
          | mk l p =>
            obtain ⟨a₀, g₀⟩ := p
            rw [hrec] at h
            simp only [Prod.mk.injEq] at h
            obtain ⟨ih1, ih2⟩ := ih (a - 1) (g + 1) hrec (by omega)
            omega
      · cases hrec : passChildren rest a g with
        | mk l p =>
          obtain ⟨a₀, g₀⟩ := p
          rw [hrec] at h
          simp only [Prod.mk.injEq] at h
          obtain ⟨ih1, ih2⟩ := ih a g hrec ha
          omega

/-- Any fuel of at least the current available space gives the same result:
the fuel chosen in build (the available space at loop entry) exactly models
the source's unbounded while loop, which stops on its own conditions. -/
theorem loop3b_fuel : ∀ (fuel₁ : ℕ) (fuel₂ : ℕ) (cs : List (Child C)) (a : ℕ),
    a ≤ fuel₁ → a ≤ fuel₂ → loop3b fuel₁ cs a = loop3b fuel₂ cs a := by
  intro fuel₁
  induction fuel₁ with
  | zero =>
    intro fuel₂ cs a h1 h2
    have ha : a = 0 := by omega
    subst ha
    cases fuel₂ with
    | zero => rfl
    | succ f₂ => simp [loop3b]
  | succ f ih =>
    intro fuel₂ cs a h1 h2
    by_cases ha : a = 0
    · subst ha
      cases fuel₂ with
      | zero => simp [loop3b]
      | succ f₂ => simp [loop3b]
    · obtain ⟨f₂, rfl⟩ : ∃ f₂, fuel₂ = f₂ + 1 := ⟨fuel₂ - 1, by omega⟩
      simp only [loop3b, if_neg ha]
      cases hrec : passChildren cs a 0 with
      | mk cs₁ p =>
        obtain ⟨a₁, g₁⟩ := p
        by_cases hg : g₁ = 0
        · simp [hg]
        · simp only [if_neg hg]
          obtain ⟨hs1, -⟩ := passChildren_sum cs a 0 hrec (by omega)
          exact ih f₂ cs₁ a₁ (by omega) (by omega)

end FlexGrow
